import Mathlib

/-!
Verification development for the area-fill and exposure-assignment engine of
the TFG repository (`Project/GetPlanes/Establish_Hierarchy.py`,
`Project/GetPlanes/Planes2AB_Sprial.py`, `Project/GetPlanes/Planes2AB_Raster.py`).

Points are embedded as pairs (or triples) of rationals; the Shapely geometric
primitives the code calls (`Polygon.contains`, `boundary.distance`, `within`)
are modelled exactly: squared point-to-segment distance is rational, so
boundary-distance comparisons against a tolerance are decided exactly, and
point-in-polygon is the even-odd ray-crossing rule on the strict interior
(Shapely's `contains` is false for a point on the boundary).
Fallible code (a Python IndexError) is modelled with Option.
-/

/-- A 2D point, as used by the trajectory and zone functions. -/
abbrev Pt := ℚ × ℚ

/-- A 3D point, as parsed from the plane files (Desde/Hasta triples). -/
abbrev Pt3 := ℚ × ℚ × ℚ

/-- The edge list of a ring given by its vertices: consecutive vertices plus
the closing edge from the last vertex back to the first (Shapely closes a
`Polygon` ring automatically). -/
def ringEdges (ring : List Pt) : List (Pt × Pt) :=
  ring.zip (ring.rotate 1)

/-- Squared Euclidean distance from point `p` to the closed segment `[a, b]`:
the parameter of the orthogonal projection is clamped to `[0, 1]`.  Exact over
ℚ, so `distance < tol` in the code becomes `distSq < tol^2` here. -/
def distSqPointSeg (p a b : Pt) : ℚ :=
  let dx := b.1 - a.1
  let dy := b.2 - a.2
  let wx := p.1 - a.1
  let wy := p.2 - a.2
  let dd := dx * dx + dy * dy
  if dd = 0 then wx * wx + wy * wy
  else
    let t := max 0 (min 1 ((wx * dx + wy * dy) / dd))
    (wx - t * dx) ^ 2 + (wy - t * dy) ^ 2

/-- `p` lies exactly on the boundary of the ring (distance zero to some edge). -/
def onRing (p : Pt) (ring : List Pt) : Bool :=
  (ringEdges ring).any fun e => decide (distSqPointSeg p e.1 e.2 = 0)

/-- One step of the even-odd rule: the horizontal ray from `p` to the right
crosses the edge `(a, b)`. -/
def rayCrosses (p a b : Pt) : Bool :=
  (decide (p.2 < a.2) != decide (p.2 < b.2)) &&
    decide (p.1 < a.1 + (b.1 - a.1) * (p.2 - a.2) / (b.2 - a.2))

/-- Model of Shapely `Polygon(ring).contains(Point p)`: `p` lies in the strict
interior of the ring — on-boundary points are NOT contained (Shapely's
`contains` requires the point to meet the interior). -/
def contains_point (p : Pt) (ring : List Pt) : Bool :=
  !(onRing p ring) && decide ((ringEdges ring).countP (fun e => rayCrosses p e.1 e.2) % 2 = 1)

/-- Model of Shapely `Polygon(outer, [hole]).contains(Point p)` — the
`allowed_area` polygon of `Establish_Hierarchy.main`: the interior of the
outer ring minus the closure of the hole.  An empty `hole` list models the
no-void case (`Polygon()`), whose containment test is always false. -/
def region_contains (p : Pt) (outer hole : List Pt) : Bool :=
  contains_point p outer && !(contains_point p hole || onRing p hole)

/-- `point_zone` (Establish_Hierarchy.py, lines 275–288): zone 1 if the
allowed area (outer ring with the hole removed) contains the point, zone 2 if
the hole polygon contains it, 0 otherwise. -/
def point_zone (p : Pt) (outer hole : List Pt) : ℕ :=
  if region_contains p outer hole then 1
  else if contains_point p hole then 2
  else 0

/-- `(1e-3)^2`: the squared border tolerance of `is_on_border`. -/
def border_tol2 : ℚ := 1 / 1000000

/-- `is_on_border` (lines 270–273): distance from `p` to the boundary of the
allowed area below `1e-3`.  The boundary of the polygon-with-hole is the outer
ring together with the hole ring, and the distance to that union of segments
is below tolerance iff the distance to some single segment is. -/
def is_on_border (p : Pt) (outer hole : List Pt) : Bool :=
  (ringEdges outer ++ ringEdges hole).any fun e =>
    decide (distSqPointSeg p e.1 e.2 < border_tol2)

/-- The shutter state assigned to one trajectory segment (body of the loop in
`assign_shutter_to_trajectory`, lines 299–307): `true` stands for the string
"open", `false` for "closed". -/
def shutter_for (p1 p2 : Pt) (outer hole : List Pt) : Bool :=
  let shutter := decide (point_zone p1 outer hole = 1) && decide (point_zone p2 outer hole = 1)
  if is_on_border p1 outer hole || is_on_border p2 outer hole then true else shutter

/-- `assign_shutter_to_trajectory` (lines 290–308): one annotated segment per
consecutive pair of trajectory points. -/
def assign_shutter_to_trajectory (trajectory : List Pt) (outer hole : List Pt) :
    List (Pt × Pt × Bool) :=
  match trajectory with
  | p1 :: p2 :: rest =>
      (p1, p2, shutter_for p1 p2 outer hole) :: assign_shutter_to_trajectory (p2 :: rest) outer hole
  | _ => []

lemma assign_shutter_getElem (outer hole : List Pt) :
    ∀ (trajectory : List Pt) (i : ℕ) (p1 p2 : Pt),
      trajectory[i]? = some p1 → trajectory[i + 1]? = some p2 →
      (assign_shutter_to_trajectory trajectory outer hole)[i]? =
        some (p1, p2, shutter_for p1 p2 outer hole) := by
  intro trajectory
  induction trajectory with
  | nil => intro i p1 p2 h1 _; simp at h1
  | cons a rest ih =>
    intro i p1 p2 h1 h2
    match rest, i with
    | [], 0 => simp at h2
    | [], j + 1 => simp at h2
    | b :: rest', 0 =>
      simp at h1 h2
      subst h1; subst h2
      simp [assign_shutter_to_trajectory]
    | b :: rest', j + 1 =>
      rw [List.getElem?_cons_succ] at h1 h2
      have := ih j p1 p2 h1 h2
      simpa [assign_shutter_to_trajectory] using this

lemma onRing_of_edge {p : Pt} {a b : Pt} {ring : List Pt}
    (hmem : (a, b) ∈ ringEdges ring) (hseg : distSqPointSeg p a b = 0) :
    onRing p ring = true := by
  unfold onRing
  rw [List.any_eq_true]
  exact ⟨(a, b), hmem, by simpa using hseg⟩

lemma is_on_border_of_edge {p : Pt} {a b : Pt} {outer hole : List Pt}
    (hmem : (a, b) ∈ ringEdges outer) (hseg : distSqPointSeg p a b = 0) :
    is_on_border p outer hole = true := by
  unfold is_on_border
  rw [List.any_eq_true]
  refine ⟨(a, b), List.mem_append_left _ hmem, ?_⟩
  simp only [decide_eq_true_eq]
  rw [hseg]
  norm_num [border_tol2]

/-- C1: for every trajectory and every consecutive pair of fill points, the
assigned exposure state is open (`true`) iff both points are in zone 1
(Allowed), except that a point within tolerance 1e-3 of the allowed area's
boundary forces the state open; in particular a segment whose first endpoint
lies exactly on an edge of the outer ring is classified open regardless of the
other endpoint's zone. -/
theorem shutter_open_iff (trajectory outer hole : List Pt) (i : ℕ) (p1 p2 : Pt)
    (h1 : trajectory[i]? = some p1) (h2 : trajectory[i + 1]? = some p2) :
    (assign_shutter_to_trajectory trajectory outer hole)[i]? =
        some (p1, p2, shutter_for p1 p2 outer hole) ∧
      (shutter_for p1 p2 outer hole = true ↔
        (point_zone p1 outer hole = 1 ∧ point_zone p2 outer hole = 1) ∨
          is_on_border p1 outer hole = true ∨ is_on_border p2 outer hole = true) ∧
      (∀ a b : Pt, (a, b) ∈ ringEdges outer → distSqPointSeg p1 a b = 0 →
        shutter_for p1 p2 outer hole = true) := by
  refine ⟨assign_shutter_getElem outer hole trajectory i p1 p2 h1 h2, ?_, ?_⟩
  · unfold shutter_for
    rcases hb1 : is_on_border p1 outer hole <;> rcases hb2 : is_on_border p2 outer hole <;>
      simp [hb1, hb2]
  · intro a b hmem hseg
    unfold shutter_for
    rw [is_on_border_of_edge hmem hseg]
    simp

/-- Witness for C1 at a concrete input: the square with corners (0,0)–(10,10),
no hole, and the two-point trajectory [(0,5), (20,5)] whose first point lies
exactly on the square's left edge. -/
theorem shutter_open_iff_witness :
    (assign_shutter_to_trajectory [((0 : ℚ), (5 : ℚ)), (20, 5)]
          [(0, 0), (10, 0), (10, 10), (0, 10)] [])[0]? =
        some (((0 : ℚ), (5 : ℚ)), ((20 : ℚ), (5 : ℚ)),
          shutter_for (0, 5) (20, 5) [(0, 0), (10, 0), (10, 10), (0, 10)] []) ∧
      (shutter_for (0, 5) (20, 5) [(0, 0), (10, 0), (10, 10), (0, 10)] [] = true ↔
        (point_zone (0, 5) [(0, 0), (10, 0), (10, 10), (0, 10)] [] = 1 ∧
            point_zone (20, 5) [(0, 0), (10, 0), (10, 10), (0, 10)] [] = 1) ∨
          is_on_border (0, 5) [(0, 0), (10, 0), (10, 10), (0, 10)] [] = true ∨
            is_on_border (20, 5) [(0, 0), (10, 0), (10, 10), (0, 10)] [] = true) ∧
      (∀ a b : Pt, (a, b) ∈ ringEdges [(0, 0), (10, 0), (10, 10), (0, 10)] →
        distSqPointSeg (0, 5) a b = 0 →
        shutter_for (0, 5) (20, 5) [(0, 0), (10, 0), (10, 10), (0, 10)] [] = true) :=
  shutter_open_iff [((0 : ℚ), (5 : ℚ)), (20, 5)] [(0, 0), (10, 0), (10, 10), (0, 10)] []
    0 (0, 5) (20, 5) (by decide) (by decide)

/-!
## C2: point containment of the Region model
-/

/-- Following the spec's words (refinement comparison only): "true iff point
lies in outer ring and not in the hole (boundary counts as contained for the
outer ring)". -/
def spec_region_contains (p : Pt) (outer hole : List Pt) : Bool :=
  (contains_point p outer || onRing p outer) && !(contains_point p hole)

/-- C2 counterexample: the point (0,5) lies exactly on the outer ring's
boundary of the 10×10 square, so by the claim it should be classified Allowed
(zone 1), but `point_zone` — built on Shapely's strict `contains` — returns 0
(Outside). -/
theorem point_zone_boundary_counterexample :
    spec_region_contains (0, 5) [(0, 0), (10, 0), (10, 10), (0, 10)] [] = true ∧
      point_zone (0, 5) [(0, 0), (10, 0), (10, 10), (0, 10)] [] = 0 := by
  constructor <;> with_unfolding_all decide

/-- C2 amended: a point is classified Allowed (zone 1) exactly when it lies
strictly inside the outer ring and neither inside nor on the hole ring — a
point exactly on the outer ring's boundary does NOT count as contained. -/
theorem point_zone_allowed_iff (p : Pt) (outer hole : List Pt) :
    point_zone p outer hole = 1 ↔
      contains_point p outer = true ∧ contains_point p hole = false ∧
        onRing p hole = false := by
  unfold point_zone region_contains
  rcases h1 : contains_point p outer <;> rcases h2 : contains_point p hole <;>
    rcases h3 : onRing p hole <;> simp [h1, h2, h3]

/-!
## C3, C4: the Path Simplifier
-/

/-- One shutter-annotated trajectory segment `(start, end, state)`;
`true` = "open", `false` = "closed". -/
abbrev TrajSeg := Pt × Pt × Bool

/-- `are_collinear` (Establish_Hierarchy.py, lines 310–315) at the default
tolerance 1e-5: the cross product of the direction vectors `q - p` and
`r - q` is below tolerance in absolute value. -/
def are_collinear (p q r : Pt) : Bool :=
  decide (|(q.1 - p.1) * (r.2 - q.2) - (q.2 - p.2) * (r.1 - q.1)| < 1 / 100000)

/-- The loop of `simplify_trajectory` (lines 326–334): the accumulator
`(cs, ce, cst)` is the current segment; an incoming segment with the same
shutter state whose end is collinear with the current segment is merged
(extending the current end), otherwise the current segment is emitted. -/
def simplify_aux : Pt → Pt → Bool → List TrajSeg → List TrajSeg
  | cs, ce, cst, [] => [(cs, ce, cst)]
  | cs, ce, cst, (ps, pe, st) :: rest =>
    if st = cst ∧ are_collinear cs ce pe = true then
      simplify_aux cs pe cst rest
    else
      (cs, ce, cst) :: simplify_aux ps pe st rest

/-- `simplify_trajectory` (lines 317–335) at the default tolerance 1e-5. -/
def simplify_trajectory : List TrajSeg → List TrajSeg
  | [] => []
  | (cs, ce, cst) :: rest => simplify_aux cs ce cst rest

lemma simplify_aux_ne_nil (rest : List TrajSeg) :
    ∀ cs ce cst, simplify_aux cs ce cst rest ≠ [] := by
  induction rest with
  | nil => intro cs ce cst; simp [simplify_aux]
  | cons x rest ih =>
    intro cs ce cst
    obtain ⟨ps, pe, st⟩ := x
    rw [simplify_aux]
    split
    · exact ih cs pe cst
    · simp

lemma simplify_aux_head (rest : List TrajSeg) :
    ∀ cs ce cst, (simplify_aux cs ce cst rest).head?.map (fun s => s.1) = some cs := by
  induction rest with
  | nil => intro cs ce cst; simp [simplify_aux]
  | cons x rest ih =>
    intro cs ce cst
    obtain ⟨ps, pe, st⟩ := x
    rw [simplify_aux]
    split
    · exact ih cs pe cst
    · simp

/-- The end point of the last segment of the list, with default `d`. -/
def last_end : List TrajSeg → Pt → Pt
  | [], d => d
  | s :: rest, _ => last_end rest s.2.1

lemma getLast_map_end (rest : List TrajSeg) :
    ∀ x : TrajSeg, ((x :: rest).getLast?).map (fun s => s.2.1) = some (last_end rest x.2.1) := by
  induction rest with
  | nil => intro x; simp [last_end]
  | cons y rest ih =>
    intro x
    rw [List.getLast?_cons_cons]
    rw [ih y]
    rfl

lemma simplify_aux_last (rest : List TrajSeg) :
    ∀ cs ce cst,
      ((simplify_aux cs ce cst rest).getLast?).map (fun s => s.2.1) =
        some (last_end rest ce) := by
  induction rest with
  | nil => intro cs ce cst; simp [simplify_aux, last_end]
  | cons x rest ih =>
    intro cs ce cst
    obtain ⟨ps, pe, st⟩ := x
    rw [simplify_aux]
    split
    · rw [ih cs pe cst]; rfl
    · obtain ⟨z, zs, hz⟩ := List.exists_cons_of_ne_nil (simplify_aux_ne_nil rest ps pe st)
      rw [hz, List.getLast?_cons_cons, ← hz, ih ps pe st]
      rfl

lemma destutter_ne_simplify_aux (rest : List TrajSeg) :
    ∀ (cs ce : Pt) (cst c : Bool),
      List.destutter' (· ≠ ·) c ((simplify_aux cs ce cst rest).map (fun s => s.2.2)) =
        List.destutter' (· ≠ ·) c (cst :: rest.map (fun s => s.2.2)) := by
  induction rest with
  | nil => intro cs ce cst c; simp [simplify_aux]
  | cons x rest ih =>
    intro cs ce cst c
    obtain ⟨ps, pe, st⟩ := x
    rw [simplify_aux]
    split
    · rename_i h
      rw [ih cs pe cst c, h.1]
      simp only [List.map_cons]
      by_cases hc : c ≠ cst
      · rw [List.destutter'_cons_pos _ hc, List.destutter'_cons_pos _ hc,
          List.destutter'_cons_neg _ (by simp)]
      · rw [List.destutter'_cons_neg _ hc, List.destutter'_cons_neg _ hc,
          List.destutter'_cons_neg _ hc]
    · simp only [List.map_cons]
      by_cases hc : c ≠ cst
      · rw [List.destutter'_cons_pos _ hc, List.destutter'_cons_pos _ hc, ih ps pe st cst]
      · rw [List.destutter'_cons_neg _ hc, List.destutter'_cons_neg _ hc, ih ps pe st c]

lemma destutter_simplify_aux (rest : List TrajSeg) (cs ce : Pt) (cst : Bool) :
    List.destutter (· ≠ ·) ((simplify_aux cs ce cst rest).map (fun s => s.2.2)) =
      List.destutter' (· ≠ ·) cst (rest.map (fun s => s.2.2)) := by
  induction rest generalizing cs ce cst with
  | nil => simp [simplify_aux]
  | cons x rest ih =>
    obtain ⟨ps, pe, st⟩ := x
    rw [simplify_aux]
    split
    · rename_i h
      rw [ih cs pe cst]
      simp only [List.map_cons]
      rw [h.1, List.destutter'_cons_neg _ (by simp)]
    · simp only [List.map_cons, List.destutter_cons']
      rw [destutter_ne_simplify_aux rest ps pe st cst]

/-- C3: for every non-empty list of shutter-annotated segments, simplification
preserves the first point of the first segment and the last point of the last
segment, and the run structure of the shutter-state sequence is unchanged
(collapsing adjacent equal states — `List.destutter (· ≠ ·)` — gives the same
sequence before and after, so every state change in the input produces a
segment boundary in the output and no state change is invented or lost). -/
theorem simplify_preserves_endpoints_and_states (P : List TrajSeg) (hP : P ≠ []) :
    (simplify_trajectory P).head?.map (fun s => s.1) = P.head?.map (fun s => s.1) ∧
      (simplify_trajectory P).getLast?.map (fun s => s.2.1) =
        P.getLast?.map (fun s => s.2.1) ∧
      List.destutter (· ≠ ·) ((simplify_trajectory P).map (fun s => s.2.2)) =
        List.destutter (· ≠ ·) (P.map (fun s => s.2.2)) := by
  obtain ⟨x, rest, rfl⟩ := List.exists_cons_of_ne_nil hP
  obtain ⟨cs, ce, cst⟩ := x
  refine ⟨?_, ?_, ?_⟩
  · rw [simplify_trajectory, simplify_aux_head rest cs ce cst]
    rfl
  · rw [simplify_trajectory, simplify_aux_last rest cs ce cst, getLast_map_end rest]
  · rw [simplify_trajectory, destutter_simplify_aux rest cs ce cst]
    simp only [List.map_cons, List.destutter_cons']

/-- Witness for C3 at a concrete three-segment path with a state change. -/
theorem simplify_preserves_witness :
    (simplify_trajectory [((0, 0), (1, 0), true), ((1, 0), (2, 0), true),
          ((2, 0), (2, 1), false)]).head?.map (fun s => s.1) =
        ([((0, 0), (1, 0), true), ((1, 0), (2, 0), true),
          ((2, 0), (2, 1), false)] : List TrajSeg).head?.map (fun s => s.1) ∧
      (simplify_trajectory [((0, 0), (1, 0), true), ((1, 0), (2, 0), true),
          ((2, 0), (2, 1), false)]).getLast?.map (fun s => s.2.1) =
        ([((0, 0), (1, 0), true), ((1, 0), (2, 0), true),
          ((2, 0), (2, 1), false)] : List TrajSeg).getLast?.map (fun s => s.2.1) ∧
      List.destutter (· ≠ ·) ((simplify_trajectory [((0, 0), (1, 0), true),
          ((1, 0), (2, 0), true), ((2, 0), (2, 1), false)]).map (fun s => s.2.2)) =
        List.destutter (· ≠ ·) (([((0, 0), (1, 0), true), ((1, 0), (2, 0), true),
          ((2, 0), (2, 1), false)] : List TrajSeg).map (fun s => s.2.2)) :=
  simplify_preserves_endpoints_and_states
    [((0, 0), (1, 0), true), ((1, 0), (2, 0), true), ((2, 0), (2, 1), false)] (by simp)

/-- A concrete shutter-annotated path on which `simplify_trajectory` is not
idempotent.  The middle segment's end (101, 2e-7) is far enough off the first
segment's line for the split test to fire (cross product 2e-5, twice the
tolerance), yet the merge of the second and third segments lands the merged
end back on that line, so a second pass merges what the first pass split.
Every comparison is at least a factor of two away from the tolerance 1e-5
(the three cross products are 2e-5, -4e-7 and 0), so the program's
double-precision arithmetic takes the same branches as the exact rational
model at this input. -/
def zigzag_path : List TrajSeg :=
  [((0, 0), (100, 0), true),
   ((100, 0), (101, 1 / 5000000), true),
   ((101, 1 / 5000000), (102, 0), true)]

/-- C4 counterexample: applying the simplifier twice to `zigzag_path` merges
further, so `simplify(simplify(P)) ≠ simplify(P)`; the first pass's output
also has two consecutive segments that are state-equal and collinear within
tolerance, refuting the claim's equivalent formulation. -/
theorem simplify_not_idempotent :
    simplify_trajectory (simplify_trajectory zigzag_path) ≠
        simplify_trajectory zigzag_path ∧
      simplify_trajectory zigzag_path =
        [((0, 0), (100, 0), true), ((100, 0), (102, 0), true)] ∧
      are_collinear (0, 0) (100, 0) (102, 0) = true := by
  refine ⟨?_, ?_, ?_⟩ <;> with_unfolding_all decide

/-- The simplifier's merge test between an accumulated segment `a` and an
incoming segment `b` fails: different shutter states, or the incoming end not
collinear with `a` within tolerance. -/
abbrev no_merge (a b : TrajSeg) : Prop :=
  ¬(b.2.2 = a.2.2 ∧ are_collinear a.1 a.2.1 b.2.1 = true)

lemma simplify_aux_length (rest : List TrajSeg) :
    ∀ cs ce cst, (simplify_aux cs ce cst rest).length ≤ rest.length + 1 := by
  induction rest with
  | nil => intro cs ce cst; simp [simplify_aux]
  | cons x rest ih =>
    intro cs ce cst
    obtain ⟨ps, pe, st⟩ := x
    rw [simplify_aux]
    split
    · exact le_trans (ih cs pe cst) (by simp)
    · simpa using ih ps pe st

lemma simplify_aux_of_no_merge (rest : List TrajSeg) :
    ∀ cs ce cst, List.Chain' no_merge ((cs, ce, cst) :: rest) →
      simplify_aux cs ce cst rest = (cs, ce, cst) :: rest := by
  induction rest with
  | nil => intro cs ce cst _; simp [simplify_aux]
  | cons x rest ih =>
    intro cs ce cst hchain
    obtain ⟨ps, pe, st⟩ := x
    rw [List.chain'_cons] at hchain
    rw [simplify_aux]
    split
    · rename_i h
      exact absurd ⟨h.1, h.2⟩ hchain.1
    · rw [ih ps pe st hchain.2]

/-- C4 amended: the simplifier is not idempotent in general (see the
counterexample); what holds is that each pass never increases the number of
segments, and that the simplifier is the identity — hence idempotent — on any
path in which no two consecutive segments are both state-equal and collinear
within tolerance (the merge condition). -/
theorem simplify_length_le_and_fixed (P : List TrajSeg) :
    (simplify_trajectory P).length ≤ P.length ∧
      (List.Chain' no_merge P → simplify_trajectory P = P) := by
  constructor
  · match P with
    | [] => simp [simplify_trajectory]
    | (cs, ce, cst) :: rest =>
      rw [simplify_trajectory]
      simpa using simplify_aux_length rest cs ce cst
  · intro hchain
    match P, hchain with
    | [], _ => simp [simplify_trajectory]
    | (cs, ce, cst) :: rest, hchain =>
      rw [simplify_trajectory]
      exact simplify_aux_of_no_merge rest cs ce cst hchain

/-- Witness for C4's amended theorem at a concrete two-segment path with a
genuine corner, on which the simplifier is the identity. -/
theorem simplify_fixed_witness :
    (simplify_trajectory [((0, 0), (1, 0), true), ((1, 0), (1, 1), true)]).length ≤
        ([((0, 0), (1, 0), true), ((1, 0), (1, 1), true)] : List TrajSeg).length ∧
      simplify_trajectory [((0, 0), (1, 0), true), ((1, 0), (1, 1), true)] =
        [((0, 0), (1, 0), true), ((1, 0), (1, 1), true)] :=
  ⟨(simplify_length_le_and_fixed [((0, 0), (1, 0), true), ((1, 0), (1, 1), true)]).1,
   (simplify_length_le_and_fixed [((0, 0), (1, 0), true), ((1, 0), (1, 1), true)]).2
     (by
       refine List.chain'_cons.mpr ⟨?_, List.chain'_singleton _⟩
       with_unfolding_all decide)⟩

/-!
## C5, C9: the Contour Builder
-/

/-- `points_equal` (Establish_Hierarchy.py, lines 175–177) at the default
tolerance 1e-5, on 3D points: every coordinate agrees within tolerance. -/
def points_equal (p1 p2 : Pt3) : Bool :=
  decide (|p1.1 - p2.1| < 1 / 100000) && decide (|p1.2.1 - p2.2.1| < 1 / 100000) &&
    decide (|p1.2.2 - p2.2.2| < 1 / 100000)

/-- One iteration of the stitching loop of `build_polygon_segments`
(lines 201–215), taking the running contour and the incoming segment's point
list (the result of `get_segment_points`): an empty point list is skipped; the
first points seed the contour; otherwise the segment is appended forward,
reversed, or — with a printed warning — unmodified, depending on which of its
endpoints matches the running last point within tolerance. -/
def append_segment (polygon_points seg_points : List Pt3) : List Pt3 :=
  match seg_points with
  | [] => polygon_points
  | sp0 :: _ =>
    match polygon_points.getLast? with
    | none => polygon_points ++ seg_points
    | some lastp =>
      if points_equal lastp sp0 then polygon_points ++ seg_points.tail
      else if points_equal lastp (seg_points.getLast?.getD sp0) then
        polygon_points ++ seg_points.reverse.tail
      else polygon_points ++ seg_points

/-- `build_polygon_segments` (lines 195–218), parameterized by the list of
per-segment point lists.  The final closure check indexes `polygon_points[0]`,
which raises IndexError when every segment contributed no points; that crash
is modelled as `none`.  Otherwise, if the first and last points are not equal
within tolerance, the first point is appended to force closure. -/
def build_polygon_points (seg_points_list : List (List Pt3)) : Option (List Pt3) :=
  match seg_points_list.foldl append_segment [] with
  | [] => none
  | p0 :: rest =>
    if points_equal p0 ((p0 :: rest).getLast (List.cons_ne_nil p0 rest)) then
      some (p0 :: rest)
    else some ((p0 :: rest) ++ [p0])

lemma points_equal_refl (p : Pt3) : points_equal p p = true := by
  unfold points_equal
  norm_num

/-- C5: every contour the builder produces (for any segment list, in
particular any non-empty one) starts and ends at points equal within the
tolerance 1e-5 — closure is forced by appending the first point when
needed. -/
theorem build_polygon_closure (seg_points_list : List (List Pt3)) (out : List Pt3)
    (hout : build_polygon_points seg_points_list = some out) :
    ∃ p0 pl, out.head? = some p0 ∧ out.getLast? = some pl ∧ points_equal p0 pl = true := by
  unfold build_polygon_points at hout
  split at hout
  · exact absurd hout (by simp)
  · rename_i p0 rest _
    split at hout
    · rename_i hcl
      obtain rfl : p0 :: rest = out := by simpa using hout
      exact ⟨p0, (p0 :: rest).getLast (List.cons_ne_nil p0 rest), rfl,
        (List.getLast?_eq_getLast _ _).symm ▸ rfl, hcl⟩
    · obtain rfl : (p0 :: rest) ++ [p0] = out := by simpa using hout
      refine ⟨p0, p0, by simp, ?_, points_equal_refl p0⟩
      rw [List.getLast?_concat]

/-- Witness for C5 at a concrete two-segment input forming a closed loop. -/
theorem build_polygon_closure_witness :
    ∃ p0 pl, ([((0 : ℚ), (0 : ℚ), (0 : ℚ)), (1, 0, 0), (0, 0, 0)] : List Pt3).head? = some p0 ∧
      ([((0 : ℚ), (0 : ℚ), (0 : ℚ)), (1, 0, 0), (0, 0, 0)] : List Pt3).getLast? = some pl ∧
      points_equal p0 pl = true :=
  build_polygon_closure [[(0, 0, 0), (1, 0, 0)], [(1, 0, 0), (0, 0, 0)]]
    [(0, 0, 0), (1, 0, 0), (0, 0, 0)] (by with_unfolding_all decide)

/-- C9 counterexample: an empty segment list — and likewise a list of segments
all of which yield no points — makes `build_polygon_segments` index
`polygon_points[0]` on an empty list, raising IndexError (modelled as `none`):
the builder does not return a best-effort contour on every input. -/
theorem build_polygon_crashes_on_empty :
    build_polygon_points [] = none ∧ build_polygon_points [[], []] = none := by
  constructor <;> rfl

lemma append_segment_ne_nil (pp sp : List Pt3) (h : pp ≠ [] ∨ sp ≠ []) :
    append_segment pp sp ≠ [] := by
  match pp, sp with
  | pp, [] =>
    rcases h with h | h
    · simpa [append_segment] using h
    · exact absurd rfl h
  | [], sp0 :: sps => simp [append_segment]
  | x :: xs, sp0 :: sps =>
    rw [append_segment]
    rcases hxs : (x :: xs).getLast? with _ | lastp
    · simp at hxs
    · split
      · simp
      · split
        · simp
        · split <;> simp

lemma foldl_append_segment_ne_nil :
    ∀ (L : List (List Pt3)) (pp : List Pt3),
      (pp ≠ [] ∨ ∃ sp ∈ L, sp ≠ []) → L.foldl append_segment pp ≠ [] := by
  intro L
  induction L with
  | nil =>
    intro pp h
    rcases h with h | ⟨sp, hmem, _⟩
    · simpa using h
    · simp at hmem
  | cons x L ih =>
    intro pp h
    rw [List.foldl_cons]
    refine ih (append_segment pp x) ?_
    rcases h with h | ⟨sp, hmem, hsp⟩
    · exact Or.inl (append_segment_ne_nil pp x (Or.inl h))
    · rcases List.mem_cons.mp hmem with rfl | hmem'
      · exact Or.inl (append_segment_ne_nil pp sp (Or.inr hsp))
      · exact Or.inr ⟨sp, hmem', hsp⟩

/-- C9 amended: the builder returns a (best-effort) contour for every input
whose segments contribute at least one point; but an input all of whose
segments yield no points — in particular the empty input — crashes with an
IndexError instead of being reported gracefully. -/
theorem build_polygon_total_on_nonempty (seg_points_list : List (List Pt3))
    (h : ∃ sp ∈ seg_points_list, sp ≠ []) :
    ∃ out, build_polygon_points seg_points_list = some out := by
  have hne := foldl_append_segment_ne_nil seg_points_list [] (Or.inr h)
  unfold build_polygon_points
  split
  · rename_i heq
    exact absurd heq hne
  · split
    · exact ⟨_, rfl⟩
    · exact ⟨_, rfl⟩

/-- Witness for C9's amended theorem at a one-segment input. -/
theorem build_polygon_total_witness :
    ∃ out, build_polygon_points [[(0, 0, 0), (1, 0, 0)]] = some out :=
  build_polygon_total_on_nonempty [[(0, 0, 0), (1, 0, 0)]]
    ⟨[(0, 0, 0), (1, 0, 0)], by simp, by simp⟩

/-!
## C6: the Hierarchy Detector
-/

/-- A point lies in the closed region bounded by the ring (interior or
boundary). -/
def in_closed (p : Pt) (ring : List Pt) : Bool :=
  contains_point p ring || onRing p ring

/-- Model of Shapely `poly2.within(poly1)` as used by `detect_hierarchy`:
every vertex of the inner polygon lies in the closed outer region and at
least one lies strictly inside.  (Exact for the convex containers exercised
here.) -/
def poly_within (inner outer : List Pt) : Bool :=
  inner.all (fun v => in_closed v outer) && inner.any (fun v => contains_point v outer)

/-- `detect_hierarchy` (Establish_Hierarchy.py, lines 116–135): every ordered
pair `(i, j)` with `i ≠ j`, both polygons present, and polygon `j` within
polygon `i`, in the double loop's order.  A `none` entry models a plane whose
polygon could not be built. -/
def detect_hierarchy (planes_info : List (Option (List Pt))) : List (ℕ × ℕ) :=
  ((List.range planes_info.length).map (fun i =>
    match planes_info[i]? with
    | some (some poly1) =>
      (List.range planes_info.length).filterMap (fun j =>
        if i = j then none
        else match planes_info[j]? with
          | some (some poly2) => if poly_within poly2 poly1 then some (i, j) else none
          | _ => none)
    | _ => [])).flatten

/-- Step 2 of `main` (lines 425–432): the first detected pair gives the parent
and child indices; an empty detection falls back to the first plane as parent
with no void. -/
def choose_parent (planes_info : List (Option (List Pt))) : ℕ × Option ℕ :=
  match detect_hierarchy planes_info with
  | [] => (0, none)
  | (father_idx, son_idx) :: _ => (father_idx, some son_idx)

/-- An axis-aligned square of side 10 centered at the origin. -/
def square10 : List Pt := [(-5, -5), (5, -5), (5, 5), (-5, 5)]

/-- An axis-aligned square of side 2 centered at the origin. -/
def square2 : List Pt := [(-1, -1), (1, -1), (1, 1), (-1, 1)]

/-- C6: on the pair of concentric squares of sides 10 and 2, hierarchy
detection reports exactly the (large, small) pair — in either input order —
and never the reverse; and whenever detection is empty, the caller falls back
to the first plane as parent with no void. -/
theorem detect_hierarchy_squares :
    detect_hierarchy [some square10, some square2] = [(0, 1)] ∧
      detect_hierarchy [some square2, some square10] = [(1, 0)] ∧
      ∀ planes_info, detect_hierarchy planes_info = [] →
        choose_parent planes_info = (0, none) := by
  refine ⟨?_, ?_, ?_⟩
  · with_unfolding_all decide
  · with_unfolding_all decide
  · intro planes_info h
    unfold choose_parent
    rw [h]

/-- Witness for C6's fallback clause at the empty plane list. -/
theorem detect_hierarchy_squares_witness :
    detect_hierarchy [] = [] ∧ choose_parent [] = (0, none) :=
  ⟨rfl, (detect_hierarchy_squares.2.2 [] rfl)⟩

/-!
## C7: arc interpolation

The two `interpolate_arc` implementations compute a list of angles with
`np.linspace` and map each angle to a point on the circle with `cos`/`sin`;
the number, order and spacing of the points equal the number, order and
spacing of the angles, so the angle schedules below carry the claim's whole
content (count, even spacing, monotonicity, sweep direction and length).
-/

/-- The arithmetic progression `a, a + d, ..., a + n*d` (n + 1 terms). -/
def aprog (a d : ℚ) : ℕ → List ℚ
  | 0 => [a]
  | n + 1 => a :: aprog (a + d) d n

/-- Model of `np.linspace(a, b, num = res + 1)` over ℚ: `res + 1` values from
`a` to `b` with common difference `(b - a) / res` (a single value `a` when
`res = 0`). -/
def linspaceQ (a b : ℚ) (res : ℕ) : List ℚ :=
  if res = 0 then [a] else aprog a ((b - a) / res) res

/-- Angle schedule of `interpolate_arc` (Establish_Hierarchy.py, lines
153–173): the end angle gains 360° when `end ≤ start`, then `res + 1` evenly
spaced angles; the extrusion vector is not consulted. -/
def interpolate_arc_angles (start_angle end_angle : ℚ) (res : ℕ) : List ℚ :=
  let end_angle := if end_angle ≤ start_angle then end_angle + 360 else end_angle
  linspaceQ start_angle end_angle res

/-- Angle schedule of `interpolate_arc` (Planes2AB_Raster.py lines 45–77 and
Planes2AB_Sprial.py lines 45–77): with negative extrusion z the end angle
gains 360° when strictly below the start; otherwise the start gains 360° when
strictly below the end and the linspace is reversed.  (The subsequent
geometric pass may reverse the point list again to make it begin at the
segment's start point.) -/
def interpolate_arc_angles_ext (start_angle end_angle : ℚ) (res : ℕ)
    (extrusion_z : ℚ) : List ℚ :=
  if extrusion_z < 0 then
    linspaceQ start_angle
      (if end_angle < start_angle then end_angle + 360 else end_angle) res
  else
    (linspaceQ (if end_angle > start_angle then start_angle + 360 else start_angle)
      end_angle res).reverse

lemma aprog_length (n : ℕ) : ∀ a d, (aprog a d n).length = n + 1 := by
  induction n with
  | zero => intro a d; rfl
  | succ n ih => intro a d; rw [aprog]; simp [ih]

lemma aprog_head (n : ℕ) (a d : ℚ) : (aprog a d n).head? = some a := by
  cases n <;> rfl

lemma aprog_chain (n : ℕ) : ∀ a d, List.Chain' (fun x y => y = x + d) (aprog a d n) := by
  induction n with
  | zero => intro a d; exact List.chain'_singleton a
  | succ n ih =>
    intro a d
    rw [aprog]
    exact List.chain'_cons'.mpr ⟨fun y hy => by rw [aprog_head] at hy; simpa using hy.symm,
      ih (a + d) d⟩

lemma aprog_getLast (n : ℕ) : ∀ a d, (aprog a d n).getLast? = some (a + n * d) := by
  induction n with
  | zero => intro a d; simp [aprog]
  | succ n ih =>
    intro a d
    rw [aprog]
    have hne : aprog (a + d) d n ≠ [] := by
      intro h
      have := aprog_length n (a + d) d
      rw [h] at this
      simp at this
    obtain ⟨z, zs, hz⟩ := List.exists_cons_of_ne_nil hne
    rw [hz, List.getLast?_cons_cons, ← hz, ih (a + d) d]
    push_cast
    ring_nf

/-- C7 counterexample: in the extrusion-aware version, a start angle equal to
the end angle (counter-clockwise branch, resolution 2) yields three samples
all at the same angle — a zero-length sweep, although the claim asserts the
normalization always makes the sweep non-zero-length. -/
theorem interpolate_arc_zero_sweep :
    interpolate_arc_angles_ext 90 90 2 1 = [90, 90, 90] ∧
      (interpolate_arc_angles_ext 90 90 2 1).head? =
        (interpolate_arc_angles_ext 90 90 2 1).getLast? := by
  constructor <;> with_unfolding_all decide

lemma linspaceQ_length (a b : ℚ) (res : ℕ) : (linspaceQ a b res).length = res + 1 := by
  unfold linspaceQ
  split
  · simp [*]
  · rw [aprog_length]

lemma linspaceQ_head (a b : ℚ) (res : ℕ) : (linspaceQ a b res).head? = some a := by
  unfold linspaceQ
  split
  · rfl
  · exact aprog_head res a _

lemma linspaceQ_chain (a b : ℚ) (res : ℕ) :
    ∃ d, List.Chain' (fun x y => y = x + d) (linspaceQ a b res) := by
  unfold linspaceQ
  split
  · exact ⟨0, List.chain'_singleton a⟩
  · exact ⟨(b - a) / res, aprog_chain res a _⟩

lemma chain_reverse_of_chain {l : List ℚ} {d : ℚ}
    (h : List.Chain' (fun x y => y = x + d) l) :
    List.Chain' (fun x y => y = x + -d) l.reverse := by
  refine List.chain'_reverse.mpr (List.Chain'.imp ?_ h)
  intro x y hxy
  rw [Function.flip_def]
  rw [hxy]
  ring

/-- C7 amended: both arc interpolators return exactly `resolution + 1` samples
evenly spaced in angle (hence a monotonic sweep); the `Establish_Hierarchy`
version ignores the extrusion vector, always starts at the start angle and —
whenever `start - 360 < end` — normalizes to a strictly increasing
(counter-clockwise), non-zero sweep; the extrusion-aware version branches on
the extrusion sign but its sweep can be zero-length (see the counterexample
with equal start and end angles). -/
theorem interpolate_arc_spec (s e : ℚ) (res : ℕ) (cz : ℚ) :
    (interpolate_arc_angles s e res).length = res + 1 ∧
      (interpolate_arc_angles_ext s e res cz).length = res + 1 ∧
      (∃ d, List.Chain' (fun x y => y = x + d) (interpolate_arc_angles s e res)) ∧
      (∃ d, List.Chain' (fun x y => y = x + d) (interpolate_arc_angles_ext s e res cz)) ∧
      (1 ≤ res → s - 360 < e →
        (interpolate_arc_angles s e res).head? = some s ∧
        ∃ l, (interpolate_arc_angles s e res).getLast? = some l ∧ s < l) := by
  refine ⟨linspaceQ_length s _ res, ?_, linspaceQ_chain s _ res, ?_, ?_⟩
  · unfold interpolate_arc_angles_ext
    split
    · exact linspaceQ_length s _ res
    · rw [List.length_reverse]
      exact linspaceQ_length _ e res
  · unfold interpolate_arc_angles_ext
    split
    · exact linspaceQ_chain s _ res
    · obtain ⟨d, hd⟩ := linspaceQ_chain (if e > s then s + 360 else s) e res
      exact ⟨-d, chain_reverse_of_chain hd⟩
  · intro hres hrange
    have hres0 : res ≠ 0 := by omega
    have hcast : (res : ℚ) ≠ 0 := Nat.cast_ne_zero.mpr hres0
    refine ⟨linspaceQ_head s _ res, ?_⟩
    have hlt : s < (if e ≤ s then e + 360 else e) := by
      by_cases h : e ≤ s
      · rw [if_pos h]; linarith
      · rw [if_neg h]; linarith [not_le.mp h]
    refine ⟨s + (res : ℚ) * (((if e ≤ s then e + 360 else e) - s) / res), ?_, ?_⟩
    · show (linspaceQ s (if e ≤ s then e + 360 else e) res).getLast? = _
      unfold linspaceQ
      rw [if_neg hres0]
      exact aprog_getLast res s _
    · have hcan : (res : ℚ) * (((if e ≤ s then e + 360 else e) - s) / res) =
          (if e ≤ s then e + 360 else e) - s := by
        field_simp
      rw [hcan]
      linarith [hlt]

/-- Witness for C7's amended theorem at start 0°, end 90°, resolution 2,
extrusion z = 1. -/
theorem interpolate_arc_spec_witness :
    (interpolate_arc_angles 0 90 2).length = 2 + 1 ∧
      (interpolate_arc_angles_ext 0 90 2 1).length = 2 + 1 ∧
      (∃ d, List.Chain' (fun x y => y = x + d) (interpolate_arc_angles 0 90 2)) ∧
      (∃ d, List.Chain' (fun x y => y = x + d) (interpolate_arc_angles_ext 0 90 2 1)) ∧
      ((interpolate_arc_angles 0 90 2).head? = some 0 ∧
        ∃ l, (interpolate_arc_angles 0 90 2).getLast? = some l ∧ (0 : ℚ) < l) :=
  ⟨(interpolate_arc_spec 0 90 2 1).1, (interpolate_arc_spec 0 90 2 1).2.1,
   (interpolate_arc_spec 0 90 2 1).2.2.1, (interpolate_arc_spec 0 90 2 1).2.2.2.1,
   (interpolate_arc_spec 0 90 2 1).2.2.2.2 (by decide) (by with_unfolding_all decide)⟩

/-!
## C8, C10: the Spiral Generator

`generate_spiral_fill` (Planes2AB_Sprial.py, lines 142–167) walks an
Archimedean spiral over real-valued angles; it is embedded over ℝ (the loop's
arithmetic uses π and square roots), parameterized by the centroid
coordinates `(cx, cy)`, the maximal boundary distance `max_r` and Shapely's
`polygon.contains` as a Boolean oracle.
-/

/-- `b = spacing / (2 * np.pi)`. -/
noncomputable def spiral_b (spacing : ℝ) : ℝ := spacing / (2 * Real.pi)

/-- The angle sequence of the spiral loop: `theta` starts at 0 and each
iteration adds `d_theta = spacing / sqrt(b^2 + r^2)` with `r = b * theta`. -/
noncomputable def spiral_theta (spacing : ℝ) : ℕ → ℝ
  | 0 => 0
  | n + 1 =>
    spiral_theta spacing n +
      spacing / Real.sqrt (spiral_b spacing ^ 2 +
        (spiral_b spacing * spiral_theta spacing n) ^ 2)

/-- The number of loop iterations: the first index whose radius `b * theta`
exceeds `max_r` (the loop guard is `b * theta <= max_r`, so exactly the
indices below this are emitted). -/
noncomputable def spiral_num_samples (max_r spacing : ℝ) : ℕ :=
  sInf {n : ℕ | max_r < spiral_b spacing * spiral_theta spacing n}

/-- `generate_spiral_fill`: the emitted sample points and inside-flags, one of
each per loop iteration. -/
noncomputable def generate_spiral_fill (cx cy max_r spacing : ℝ)
    (containsFn : ℝ → ℝ → Bool) : List (ℝ × ℝ) × List Bool :=
  ((List.range (spiral_num_samples max_r spacing)).map fun n =>
      (cx + spiral_b spacing * spiral_theta spacing n * Real.cos (spiral_theta spacing n),
       cy + spiral_b spacing * spiral_theta spacing n * Real.sin (spiral_theta spacing n)),
   (List.range (spiral_num_samples max_r spacing)).map fun n =>
      containsFn
        (cx + spiral_b spacing * spiral_theta spacing n * Real.cos (spiral_theta spacing n))
        (cy + spiral_b spacing * spiral_theta spacing n * Real.sin (spiral_theta spacing n)))

lemma spiral_b_pos {spacing : ℝ} (hs : 0 < spacing) : 0 < spiral_b spacing :=
  div_pos hs (by positivity)

lemma spiral_theta_nonneg {spacing : ℝ} (hs : 0 < spacing) (n : ℕ) :
    0 ≤ spiral_theta spacing n := by
  induction n with
  | zero => exact le_refl 0
  | succ n ih =>
    have hb := spiral_b_pos hs
    have hpos : 0 < Real.sqrt (spiral_b spacing ^ 2 +
        (spiral_b spacing * spiral_theta spacing n) ^ 2) := by
      apply Real.sqrt_pos.mpr
      positivity
    rw [spiral_theta]
    have := div_pos hs hpos
    linarith

/-- Shared termination argument: while the radius stays below `max_r` the
angle step is bounded below by a positive amount, so the guard eventually
fails. -/
lemma spiral_terminates {max_r spacing : ℝ} (hs : 0 < spacing) (hR : 0 ≤ max_r) :
    ∃ N, max_r < spiral_b spacing * spiral_theta spacing N := by
  have hb := spiral_b_pos hs
  set b := spiral_b spacing with hbdef
  have hdenpos : 0 < Real.sqrt (b ^ 2 + max_r ^ 2) := by
    apply Real.sqrt_pos.mpr
    positivity
  set δ := spacing / Real.sqrt (b ^ 2 + max_r ^ 2) with hδdef
  have hδ : 0 < δ := div_pos hs hdenpos
  by_contra hcon
  push_neg at hcon
  have key : ∀ n : ℕ, (n : ℝ) * δ ≤ spiral_theta spacing n := by
    intro n
    induction n with
    | zero => simp [spiral_theta]
    | succ n ih =>
      have htn := spiral_theta_nonneg hs n
      have hrle : b * spiral_theta spacing n ≤ max_r := hcon n
      have hrnn : 0 ≤ b * spiral_theta spacing n := by positivity
      have hsq : (b * spiral_theta spacing n) ^ 2 ≤ max_r ^ 2 := by
        apply sq_le_sq'
        · linarith
        · exact hrle
      have hsqrt : Real.sqrt (b ^ 2 + (b * spiral_theta spacing n) ^ 2) ≤
          Real.sqrt (b ^ 2 + max_r ^ 2) := by
        apply Real.sqrt_le_sqrt
        linarith
      have hstep : δ ≤ spacing / Real.sqrt (b ^ 2 + (b * spiral_theta spacing n) ^ 2) := by
        rw [hδdef]
        apply div_le_div_of_nonneg_left hs.le _ hsqrt
        apply Real.sqrt_pos.mpr
        positivity
      rw [spiral_theta]
      push_cast
      linarith
  obtain ⟨n, hn⟩ := exists_nat_gt (max_r / (b * δ))
  have hbδ : 0 < b * δ := by positivity
  have hlt : max_r < n * (b * δ) := (div_lt_iff₀ hbδ).mp hn
  have : (n : ℝ) * δ ≤ spiral_theta spacing n := key n
  have : (n : ℝ) * (b * δ) ≤ b * spiral_theta spacing n := by
    calc (n : ℝ) * (b * δ) = b * ((n : ℝ) * δ) := by ring
    _ ≤ b * spiral_theta spacing n := by
      apply mul_le_mul_of_nonneg_left this hb.le
  exact absurd (hcon n) (not_le.mpr (lt_of_lt_of_le hlt this))

/-- C8: the spiral generator terminates — the loop guard `b * theta <= max_r`
fails after finitely many iterations — and every emitted sample's radius is at
most `max_r + spacing`. -/
theorem spiral_termination (max_r spacing : ℝ) (hs : 0 < spacing) (hR : 0 ≤ max_r) :
    (∃ N, max_r < spiral_b spacing * spiral_theta spacing N) ∧
      ∀ n, n < spiral_num_samples max_r spacing →
        spiral_b spacing * spiral_theta spacing n ≤ max_r + spacing := by
  refine ⟨spiral_terminates hs hR, ?_⟩
  intro n hn
  have hnot : n ∉ {m : ℕ | max_r < spiral_b spacing * spiral_theta spacing m} :=
    Nat.not_mem_of_lt_sInf hn
  simp only [Set.mem_setOf_eq, not_lt] at hnot
  linarith

/-- Witness for C8 at `max_r = 1`, `spacing = 1`. -/
theorem spiral_termination_witness :
    (∃ N, (1 : ℝ) < spiral_b 1 * spiral_theta 1 N) ∧
      ∀ n, n < spiral_num_samples 1 1 → spiral_b 1 * spiral_theta 1 n ≤ 1 + 1 :=
  spiral_termination 1 1 one_pos zero_le_one

/-- C10: the spiral generator returns point and flag lists of equal length,
both non-empty, and the first sample is exactly the centroid `(cx, cy)` —
whatever the containment oracle says there (the spiral starts at angle 0,
radius 0, even when the centroid is outside the fillable area). -/
theorem spiral_fill_first_sample (cx cy max_r spacing : ℝ) (containsFn : ℝ → ℝ → Bool)
    (hs : 0 < spacing) (hR : 0 ≤ max_r) :
    (generate_spiral_fill cx cy max_r spacing containsFn).1.length =
        (generate_spiral_fill cx cy max_r spacing containsFn).2.length ∧
      (generate_spiral_fill cx cy max_r spacing containsFn).1 ≠ [] ∧
      (generate_spiral_fill cx cy max_r spacing containsFn).1.head? = some (cx, cy) := by
  have hex := @spiral_terminates max_r spacing hs hR
  have hne : {n : ℕ | max_r < spiral_b spacing * spiral_theta spacing n}.Nonempty := hex
  have hmem := Nat.sInf_mem hne
  have hN0 : spiral_num_samples max_r spacing ≠ 0 := by
    intro h0
    rw [spiral_num_samples] at h0
    rw [h0] at hmem
    simp only [Set.mem_setOf_eq, spiral_theta] at hmem
    rw [mul_zero] at hmem
    linarith
  obtain ⟨m, hm⟩ := Nat.exists_eq_succ_of_ne_zero hN0
  refine ⟨by simp [generate_spiral_fill], ?_, ?_⟩
  · have : (generate_spiral_fill cx cy max_r spacing containsFn).1.length ≠ 0 := by
      simp only [generate_spiral_fill, List.length_map, List.length_range]
      exact hN0
    intro hnil
    rw [hnil] at this
    simp at this
  · simp only [generate_spiral_fill, hm, List.range_succ_eq_map, List.map_cons, List.head?_cons]
    simp [spiral_theta]

/-- Witness for C10 at the unit configuration with a constantly-false
containment oracle (centroid outside the fillable area). -/
theorem spiral_fill_first_sample_witness :
    (generate_spiral_fill 0 0 1 1 (fun _ _ => false)).1.length =
        (generate_spiral_fill 0 0 1 1 (fun _ _ => false)).2.length ∧
      (generate_spiral_fill 0 0 1 1 (fun _ _ => false)).1 ≠ [] ∧
      (generate_spiral_fill 0 0 1 1 (fun _ _ => false)).1.head? = some (0, 0) :=
  spiral_fill_first_sample 0 0 1 1 (fun _ _ => false) one_pos zero_le_one
